import Mathlib

/-!
Verification development for the `toylb` reverse-proxy load balancer.

The Go source consists of a backend pool (`Server`, `ServerPool`,
`NextServer`, `SetServerStatus`, `HealthCheck`), a dispatch handler
(`loadBalance`) and a per-backend reverse-proxy error handler that
implements the retry / attempt escalation protocol.  The definitions
below are a shallow embedding of that code:

* Go `uint64` arithmetic is `Nat` arithmetic modulo `2 ^ 64`;
  the Go conversion `int(u)` of a `uint64` to the 64-bit `int` is
  `toInt64`, and `int` addition wraps via `iwrap64`.
* Go's integer `%` is truncated remainder, `Int.tmod`.
* Indexing a slice out of range and integer division by zero are Go
  panics; functions that can panic return a `GoResult`.
* A `Server`'s mutex-guarded liveness writes versus direct field writes
  are recorded as `AliveWrite` values, so that which writes hold the
  per-backend lock is part of the model.
* The dispatch handler, the reverse-proxy forwarding and the error
  handler form a small-step machine on `DState`; the outcome of each
  forwarding attempt is given by an oracle `Nat → Bool` consulted on a
  running clock, and `cancelled` says whether the inbound request's
  context has been cancelled.  The error handler's `select` statement
  in the source has a single case, `<-time.After(10 * time.Millisecond)`;
  the request context's `Done` channel is not among its cases, which is
  why no branch of `errorHandlerStep` consults `cancelled`.
-/

namespace ToyLB

/-- Modulus of Go `uint64` arithmetic. -/
def UINT64_MOD : Nat := 2 ^ 64

/-- Threshold `2 ^ 63`: Go `int(u)` for a `uint64` value `u` at or above
this threshold yields a negative 64-bit integer. -/
def INT64_HALF : Nat := 2 ^ 63

/-- Go conversion `int(u)` of a `uint64` value (64-bit two's complement
reinterpretation). -/
def toInt64 (u : Nat) : Int :=
  if u < INT64_HALF then (u : Int) else (u : Int) - (UINT64_MOD : Int)

/-- Wrap-around of 64-bit signed integer addition (Go `int` overflow is
defined to wrap). -/
def iwrap64 (x : Int) : Int :=
  (x + (INT64_HALF : Int)) % (UINT64_MOD : Int) - (INT64_HALF : Int)

/-- One backend: `URL` (compared via its string form) plus the mutable
liveness flag.  The `mux` and `ReverseProxy` fields of the Go struct are
modelled by the `AliveWrite` instrumentation and the dispatch machine
respectively. -/
structure Server where
  url : String
  alive : Bool
deriving DecidableEq

/-- Go `Server.IsAlive`: reads the flag (without taking the lock). -/
def Server.IsAlive (s : Server) : Bool := s.alive

/-- Record of one write to a backend's `Alive` field: either performed
while holding the backend's mutex (`locked`) or a direct unsynchronized
field assignment (`unlocked`). -/
inductive AliveWrite where
  | locked (url : String) (v : Bool)
  | unlocked (url : String) (v : Bool)
deriving DecidableEq

/-- Go `Server.SetAlive`: `mux.Lock(); s.Alive = alive; mux.Unlock()` —
a lock-guarded write. -/
def Server.SetAlive (s : Server) (v : Bool) : Server × AliveWrite :=
  ({ s with alive := v }, .locked s.url v)

/-- The backend pool: ordered list of servers plus the `uint64` rotation
cursor `current`. -/
structure ServerPool where
  servers : List Server
  current : Nat
deriving DecidableEq

/-- Result of running a piece of Go code that may panic (out-of-range
slice index, integer division by zero). -/
inductive GoResult (α : Type) where
  | ok (val : α)
  | panic
deriving DecidableEq

/-- The scan loop of Go `ServerPool.NextServer`:
`for i := nextIndex; i < l; i++ { next := i % len(servers); if servers[next].IsAlive() { if i != nextIndex { store(current, uint64(next)) }; return servers[next] } }`.
The fuel argument is the iteration count `l - nextIndex` computed by the
caller; `cur` is the cursor value already stored by the atomic add, and
the returned `Nat` is the cursor value after the loop. -/
def scanGo (servers : List Server) (nI : Int) (cur : Nat) :
    Int → Nat → GoResult (Option Server × Nat)
  | _, 0 => .ok (none, cur)
  | i, fuel + 1 =>
    if servers.length = 0 then
      .panic
    else
      let next : Int := Int.tmod i (servers.length : Int)
      if h : 0 ≤ next ∧ next < (servers.length : Int) then
        let s := servers.get ⟨next.toNat, by omega⟩
        if s.IsAlive then .ok (some s, if i ≠ nI then next.toNat else cur)
        else scanGo servers nI cur (i + 1) fuel
      else .panic

/-- Go `ServerPool.NextServer`: atomically increment `current` (uint64),
convert to `int`, scan `len(servers)` consecutive indices (the bound
`l := len(p.servers) + nextIndex` wraps in `int`), returning the first
alive server; when it is found past the immediate next slot the cursor
is stored back to the found index. -/
def ServerPool.NextServer (p : ServerPool) : GoResult (Option Server × ServerPool) :=
  let newCur : Nat := (p.current + 1) % UINT64_MOD
  let nextIndex : Int := toInt64 newCur
  let l : Int := iwrap64 ((p.servers.length : Int) + nextIndex)
  match scanGo p.servers nextIndex newCur nextIndex (l - nextIndex).toNat with
  | .panic => .panic
  | .ok (res, cur) => .ok (res, { p with current := cur })

/-- The loop body of Go `ServerPool.SetServerStatus`: linear scan, on the
first `s.URL.String() == url.String()` match assign `s.Alive = alive`
directly (no mutex) and `break`.  Returns the updated list together with
the recorded liveness writes. -/
def setStatusList : List Server → String → Bool → List Server × List AliveWrite
  | [], _, _ => ([], [])
  | s :: rest, u, a =>
    if s.url = u then ({ s with alive := a } :: rest, [.unlocked u a])
    else
      let r := setStatusList rest u a
      (s :: r.1, r.2)

/-- Go `ServerPool.SetServerStatus`. -/
def ServerPool.SetServerStatus (p : ServerPool) (u : String) (a : Bool) :
    ServerPool × List AliveWrite :=
  let r := setStatusList p.servers u a
  ({ p with servers := r.1 }, r.2)

/-- One tick of Go `ServerPool.HealthCheck`: probe every server and set
its flag through `SetAlive`.  `probe` gives the reachability outcome of
`isServerAlive` for each URL. -/
def ServerPool.HealthCheckTick (p : ServerPool) (probe : String → Bool) :
    ServerPool × List AliveWrite :=
  let results := p.servers.map (fun s => s.SetAlive (probe s.url))
  ({ p with servers := results.map Prod.fst }, results.map Prod.snd)

/-- Maximum retries against one backend (main.go `MAX_RETRIES`). -/
def MAX_RETRIES : Nat := 3

/-- Maximum dispatch attempts for one request (main.go `MAX_ATTEMPTS`). -/
def MAX_ATTEMPTS : Nat := 3

/-- The request context as used by the source: at most one value under
the `Attempts` key and one under the `Retry` key (`context.WithValue`
shadows previous entries for the same key). -/
structure ReqCtx where
  attemptsVal : Option Nat
  retryVal : Option Nat
deriving DecidableEq

/-- Go `context.WithValue(r.Context(), Attempts, v)`. -/
def ReqCtx.withAttempts (c : ReqCtx) (v : Nat) : ReqCtx :=
  { c with attemptsVal := some v }

/-- Go `context.WithValue(r.Context(), Retry, v)`. -/
def ReqCtx.withRetry (c : ReqCtx) (v : Nat) : ReqCtx :=
  { c with retryVal := some v }

/-- Go `GetAttemptsFromContext`: the `Attempts` value, defaulting to 1. -/
def GetAttemptsFromContext (c : ReqCtx) : Nat := c.attemptsVal.getD 1

/-- Go `GetRetriesFromContext`: the `Retry` value, defaulting to 0. -/
def GetRetriesFromContext (c : ReqCtx) : Nat := c.retryVal.getD 0

/-- Observable events of one request's processing. -/
inductive Event where
  | forward (url : String)
  | markDown (url : String)
  | respond503
deriving DecidableEq

/-- Control point of the dispatch machine: about to run `loadBalance`,
about to forward via a backend's reverse proxy, inside that backend's
`ErrorHandler`, or finished. -/
inductive Phase where
  | dispatch (ctx : ReqCtx)
  | forwardTo (url : String) (ctx : ReqCtx)
  | handleError (url : String) (ctx : ReqCtx)
  | doneOK (url : String)
  | done503
  | poolPanic
deriving DecidableEq

/-- State of one inbound request's processing: control point, the shared
pool, the clock indexing forwarding attempts, and the event trace. -/
structure DState where
  phase : Phase
  pool : ServerPool
  clock : Nat
  trace : List Event
deriving DecidableEq

/-- Go `loadBalance`: fail with 503 once `attempts > MAX_ATTEMPTS`;
otherwise select the next server and forward to it, or 503 if none is
available. -/
def loadBalanceStep (st : DState) (ctx : ReqCtx) : DState :=
  let attempts := GetAttemptsFromContext ctx
  if attempts > MAX_ATTEMPTS then
    { st with phase := .done503, trace := st.trace ++ [.respond503] }
  else
    match st.pool.NextServer with
    | .panic => { st with phase := .poolPanic }
    | .ok (none, p) =>
      { st with phase := .done503, pool := p, trace := st.trace ++ [.respond503] }
    | .ok (some s, p) => { st with phase := .forwardTo s.url ctx, pool := p }

/-- One forwarding attempt through `server.ReverseProxy.ServeHTTP`: the
oracle says whether the transport succeeds at this clock tick; on a
transport error the proxy invokes its `ErrorHandler`. -/
def serveHTTPStep (oracle : Nat → Bool) (st : DState) (u : String) (ctx : ReqCtx) : DState :=
  if oracle st.clock then
    { st with phase := .doneOK u, clock := st.clock + 1, trace := st.trace ++ [.forward u] }
  else
    { st with phase := .handleError u ctx, clock := st.clock + 1,
               trace := st.trace ++ [.forward u] }

/-- Go `reverseProxy.ErrorHandler`: if `retries < MAX_RETRIES`, wait on
the timer (the `select` has only the `time.After` case, so `cancelled`
is not consulted) and re-forward to the same backend with `Retry`
incremented; otherwise mark the backend down via `SetServerStatus` and
re-enter `loadBalance` with `Attempts` incremented (the `Retry` value of
the context is left as is). -/
def errorHandlerStep (cancelled : Bool) (st : DState) (u : String) (ctx : ReqCtx) : DState :=
  let retries := GetRetriesFromContext ctx
  if retries < MAX_RETRIES then
    { st with phase := .forwardTo u (ctx.withRetry (retries + 1)) }
  else
    { st with phase := .dispatch (ctx.withAttempts (GetAttemptsFromContext ctx + 1)),
               pool := (st.pool.SetServerStatus u false).1,
               trace := st.trace ++ [.markDown u] }

/-- One small step of the dispatch / retry protocol. -/
def step (oracle : Nat → Bool) (cancelled : Bool) (st : DState) : DState :=
  match st.phase with
  | .dispatch ctx => loadBalanceStep st ctx
  | .forwardTo u ctx => serveHTTPStep oracle st u ctx
  | .handleError u ctx => errorHandlerStep cancelled st u ctx
  | _ => st

/-- Iterate `step`. -/
def run (oracle : Nat → Bool) (cancelled : Bool) : Nat → DState → DState
  | 0, st => st
  | fuel + 1, st => run oracle cancelled fuel (step oracle cancelled st)

/-- Sequential calls to `NextServer`, collecting the returned servers and
threading the pool state; a panic of any call is propagated. -/
def iterNext (p : ServerPool) : Nat → GoResult (List (Option Server) × ServerPool)
  | 0 => .ok ([], p)
  | m + 1 =>
    match p.NextServer with
    | .panic => .panic
    | .ok (res, p1) =>
      match iterNext p1 m with
      | .panic => .panic
      | .ok (rest, pf) => .ok (res :: rest, pf)

/-- Liveness of the backend at index `m` (false when out of range). -/
def aliveAt (servers : List Server) (m : Nat) : Bool :=
  match servers[m]? with
  | some s => s.IsAlive
  | none => false

/-- Specification-level scan: first alive backend at position `j, j+1, …`
of the number line, where position `p` refers to slot `p % length`.
Returns the absolute position together with the slot index. -/
def firstAlivePos (servers : List Server) : Nat → Nat → Option (Nat × Nat)
  | _, 0 => none
  | j, fuel + 1 =>
    match servers[j % servers.length]? with
    | some s => if s.IsAlive then some (j, j % servers.length)
                else firstAlivePos servers (j + 1) fuel
    | none => none

/-- First alive position at or after `j` on the number line (equals `j`
itself when no backend is alive; only used under the hypothesis that
some backend is alive). -/
def lineNextD (servers : List Server) (j : Nat) : Nat :=
  match firstAlivePos servers j servers.length with
  | some pr => pr.1
  | none => j

/-- The sequence of positions selected by successive `NextServer` calls
whose first call scans from position `s0`: each selection takes the
first alive position, and the next call continues just past it. -/
def lineSeq (servers : List Server) (s0 : Nat) : Nat → Nat
  | 0 => lineNextD servers s0
  | t + 1 => lineNextD servers (lineSeq servers s0 t + 1)

/-- Number of alive backends. -/
def aliveN (servers : List Server) : Nat :=
  (List.range servers.length).countP (fun m => aliveAt servers m)

/-- Number of alive-slot positions among `a, a+1, …, a+len-1` on the
number line. -/
def icount (servers : List Server) (a len : Nat) : Nat :=
  (List.range len).countP (fun k => aliveAt servers ((a + k) % servers.length))

/-- Per-slot test of the specification's scan: the backend at slot `m`
when its liveness flag is true, nothing otherwise. -/
def aliveProbe (servers : List Server) (m : Nat) : Option Server :=
  match servers[m]? with
  | some s => if s.IsAlive then some s else none
  | none => none

/-- Modelled on the spec's words for `selectNext()` (§4.1): atomically
increment the cursor, then scan at most `len(backends)` consecutive
indices starting at `cursor mod len(backends)`, wrapping, in ascending
order, returning the first backend whose liveness flag is true. -/
def selectNextSpec (p : ServerPool) : Option Server :=
  let n := p.servers.length
  let cursor := (p.current + 1) % UINT64_MOD
  (List.range n).findSome? (fun k => aliveProbe p.servers ((cursor % n + k) % n))

/-- Concrete three-backend pool ("s1", "s2", "s3", all alive, cursor 0)
used by the end-to-end failing run. -/
def poolABC : ServerPool :=
  ⟨[⟨"http://s1", true⟩, ⟨"http://s2", true⟩, ⟨"http://s3", true⟩], 0⟩

/-- Oracle under which every forwarding attempt fails with a transport
error. -/
def oracleFail : Nat → Bool := fun _ => false

/-- Initial dispatch state of a fresh request (empty context) against
`poolABC`. -/
def startABC : DState := ⟨.dispatch ⟨none, none⟩, poolABC, 0, []⟩

/-!
Basic lemmas: the 64-bit conversions are the identity on small values,
and the Go scan loop agrees with the specification-level scan
`firstAlivePos` whenever its start index is a natural number.
-/

theorem toInt64_of_lt {u : Nat} (h : u < INT64_HALF) : toInt64 u = (u : Int) := by
  simp [toInt64, h]

theorem iwrap64_of_range {x : Int} (h1 : -(INT64_HALF : Int) ≤ x)
    (h2 : x < (INT64_HALF : Int)) : iwrap64 x = x := by
  have hlt : (INT64_HALF : Int) + (INT64_HALF : Int) = (UINT64_MOD : Int) := by
    norm_num [INT64_HALF, UINT64_MOD]
  have h0 : 0 ≤ x + (INT64_HALF : Int) := by omega
  have h3 : x + (INT64_HALF : Int) < (UINT64_MOD : Int) := by omega
  have := Int.emod_eq_of_lt h0 h3
  simp only [iwrap64, this]
  omega

theorem scanGo_eq (servers : List Server) (nI : Int) (cur : Nat) :
    ∀ (fuel j : Nat), 0 < servers.length →
    scanGo servers nI cur (j : Int) fuel =
      .ok (match firstAlivePos servers j fuel with
        | none => (none, cur)
        | some pr => (servers[pr.2]?, if (pr.1 : Int) = nI then cur else pr.2)) := by
  intro fuel
  induction fuel with
  | zero => intro j _; rfl
  | succ f ih =>
    intro j hn
    have hlen : ¬ servers.length = 0 := Nat.pos_iff_ne_zero.mp hn
    have hmod : j % servers.length < servers.length := Nat.mod_lt _ hn
    have htm : Int.tmod (j : Int) (servers.length : Int) =
        ((j % servers.length : Nat) : Int) := (Int.ofNat_tmod j servers.length).symm
    have hcond : (0 : Int) ≤ ((j % servers.length : Nat) : Int) ∧
        ((j % servers.length : Nat) : Int) < (servers.length : Int) := by
      constructor
      · exact Int.ofNat_nonneg _
      · exact_mod_cast hmod
    have hget : servers[j % servers.length]? = some servers[j % servers.length] :=
      List.getElem?_eq_getElem hmod
    rw [scanGo, if_neg hlen]
    simp only [htm, dif_pos hcond, Int.toNat_natCast, List.get_eq_getElem]
    rw [firstAlivePos, hget]
    by_cases ha : servers[j % servers.length].IsAlive
    · simp [ha, hget, ne_eq, ite_not]
    · have hcast : (j : Int) + 1 = ((j + 1 : Nat) : Int) := by push_cast; ring
      simp only [Bool.not_eq_true] at ha
      simp only [ha, Bool.false_eq_true, if_false, hcast]
      exact ih (j + 1) hn

theorem firstAlivePos_spec (servers : List Server) :
    ∀ (fuel j pos idx : Nat), firstAlivePos servers j fuel = some (pos, idx) →
      j ≤ pos ∧ pos < j + fuel ∧ idx = pos % servers.length ∧
        aliveAt servers idx = true := by
  intro fuel
  induction fuel with
  | zero => intro j pos idx h; simp [firstAlivePos] at h
  | succ f ih =>
    intro j pos idx h
    rw [firstAlivePos] at h
    cases hg : servers[j % servers.length]? with
    | none => rw [hg] at h; exact absurd h (by simp)
    | some s =>
      rw [hg] at h
      by_cases ha : s.IsAlive
      · simp only [ha, if_true] at h
        obtain ⟨rfl, rfl⟩ : j = pos ∧ j % servers.length = idx := by
          have := Option.some.inj h
          exact ⟨congrArg Prod.fst this, congrArg Prod.snd this⟩
        refine ⟨le_refl _, by omega, rfl, ?_⟩
        simp [aliveAt, hg, ha]
      · simp only [Bool.not_eq_true] at ha
        simp only [ha, Bool.false_eq_true, if_false] at h
        obtain ⟨h1, h2, h3, h4⟩ := ih (j + 1) pos idx h
        exact ⟨by omega, by omega, h3, h4⟩

theorem firstAlivePos_min (servers : List Server) :
    ∀ (fuel j pos idx : Nat), firstAlivePos servers j fuel = some (pos, idx) →
      ∀ r, j ≤ r → r < pos → aliveAt servers (r % servers.length) = false := by
  intro fuel
  induction fuel with
  | zero => intro j pos idx h; simp [firstAlivePos] at h
  | succ f ih =>
    intro j pos idx h r hjr hrp
    rw [firstAlivePos] at h
    cases hg : servers[j % servers.length]? with
    | none => rw [hg] at h; exact absurd h (by simp)
    | some s =>
      rw [hg] at h
      by_cases ha : s.IsAlive
      · simp only [ha, if_true] at h
        have : j = pos := congrArg Prod.fst (Option.some.inj h)
        omega
      · simp only [Bool.not_eq_true] at ha
        simp only [ha, Bool.false_eq_true, if_false] at h
        rcases Nat.eq_or_lt_of_le hjr with rfl | hlt
        · simp [aliveAt, hg, ha]
        · exact ih (j + 1) pos idx h r hlt hrp

theorem firstAlivePos_isSome (servers : List Server) (hn : 0 < servers.length) :
    ∀ (fuel j : Nat),
      (∃ k, k < fuel ∧ aliveAt servers ((j + k) % servers.length) = true) →
      (firstAlivePos servers j fuel).isSome := by
  intro fuel
  induction fuel with
  | zero => intro j h; obtain ⟨k, hk, _⟩ := h; omega
  | succ f ih =>
    intro j h
    have hmod : j % servers.length < servers.length := Nat.mod_lt _ hn
    have hget : servers[j % servers.length]? = some servers[j % servers.length] :=
      List.getElem?_eq_getElem hmod
    rw [firstAlivePos, hget]
    by_cases ha : servers[j % servers.length].IsAlive
    · simp [ha]
    · simp only [Bool.not_eq_true] at ha
      simp only [ha, Bool.false_eq_true, if_false]
      obtain ⟨k, hk, hal⟩ := h
      apply ih (j + 1)
      refine ⟨k - 1, ?_, ?_⟩
      · rcases Nat.eq_zero_or_pos k with rfl | hkpos
        · exfalso
          simp only [Nat.add_zero] at hal
          simp [aliveAt, hget, ha] at hal
        · omega
      · rcases Nat.eq_zero_or_pos k with rfl | hkpos
        · exfalso
          simp only [Nat.add_zero] at hal
          simp [aliveAt, hget, ha] at hal
        · have : j + 1 + (k - 1) = j + k := by omega
          rw [this]; exact hal

theorem reach_residue (n j m : Nat) (hn : 0 < n) (hm : m < n) :
    ∃ k, k < n ∧ (j + k) % n = m := by
  have key : ∀ k, (j + k) % n = (j % n + k) % n := fun k => (Nat.mod_add_mod j n k).symm
  have hr : j % n < n := Nat.mod_lt _ hn
  by_cases hc : j % n ≤ m
  · refine ⟨m - j % n, by omega, ?_⟩
    rw [key]
    have : j % n + (m - j % n) = m := by omega
    rw [this]
    exact Nat.mod_eq_of_lt hm
  · refine ⟨m + n - j % n, by omega, ?_⟩
    rw [key]
    have : j % n + (m + n - j % n) = m + n := by omega
    rw [this, Nat.add_mod_right]
    exact Nat.mod_eq_of_lt hm

theorem firstAlivePos_none_of_dead (servers : List Server)
    (hdead : ∀ s ∈ servers, s.IsAlive = false) :
    ∀ (fuel j : Nat), firstAlivePos servers j fuel = none := by
  intro fuel
  induction fuel with
  | zero => intro j; rfl
  | succ f ih =>
    intro j
    rw [firstAlivePos]
    cases hg : servers[j % servers.length]? with
    | none => rfl
    | some s =>
      have hfa : s.IsAlive = false := hdead s (List.getElem?_mem hg)
      simp only [hfa, Bool.false_eq_true, if_false]
      exact ih (j + 1)

theorem toInt64_range (u : Nat) (h : u < UINT64_MOD) :
    -(INT64_HALF : Int) ≤ toInt64 u ∧ toInt64 u < (INT64_HALF : Int) := by
  have hm : UINT64_MOD = 2 * INT64_HALF := by norm_num [INT64_HALF, UINT64_MOD]
  unfold toInt64
  split <;> omega

theorem NextServer_eq (p : ServerPool) (hn : 0 < p.servers.length)
    (hc : p.current + 1 + p.servers.length < INT64_HALF) :
    p.NextServer =
      .ok (match firstAlivePos p.servers (p.current + 1) p.servers.length with
        | none => (none, { p with current := p.current + 1 })
        | some pr => (p.servers[pr.2]?,
            { p with current := if pr.1 = p.current + 1 then p.current + 1 else pr.2 })) := by
  have hhalf : INT64_HALF < UINT64_MOD := by norm_num [INT64_HALF, UINT64_MOD]
  have h1 : (p.current + 1) % UINT64_MOD = p.current + 1 := Nat.mod_eq_of_lt (by omega)
  have h2 : toInt64 (p.current + 1) = ((p.current + 1 : Nat) : Int) :=
    toInt64_of_lt (by omega)
  have hcI : ((p.current + 1 + p.servers.length : Nat) : Int) < (INT64_HALF : Int) := by
    exact_mod_cast hc
  have h3 : iwrap64 ((p.servers.length : Int) + ((p.current + 1 : Nat) : Int)) =
      (p.servers.length : Int) + ((p.current + 1 : Nat) : Int) := by
    apply iwrap64_of_range
    · push_cast
      omega
    · push_cast at hcI ⊢
      omega
  have h4 : ((p.servers.length : Int) + ((p.current + 1 : Nat) : Int) -
      ((p.current + 1 : Nat) : Int)).toNat = p.servers.length := by omega
  simp only [ServerPool.NextServer, h1, h2, h3, h4]
  rw [scanGo_eq p.servers _ _ p.servers.length (p.current + 1) hn]
  cases hfp : firstAlivePos p.servers (p.current + 1) p.servers.length with
  | none => simp
  | some pr =>
    simp only
    by_cases hp : pr.1 = p.current + 1
    · simp [hp]
    · have hiff : ((pr.1 : Int) = (p.current : Int) + 1) ↔ pr.1 = p.current + 1 := by
        omega
      simp [hp, hiff]

theorem NextServer_none (p : ServerPool) (hn : 0 < p.servers.length)
    (hc : p.current + 1 + p.servers.length < INT64_HALF)
    (hfp : firstAlivePos p.servers (p.current + 1) p.servers.length = none) :
    p.NextServer = .ok (none, { p with current := p.current + 1 }) := by
  rw [NextServer_eq p hn hc, hfp]

theorem NextServer_some (p : ServerPool) (hn : 0 < p.servers.length)
    (hc : p.current + 1 + p.servers.length < INT64_HALF) (pr : Nat × Nat)
    (hfp : firstAlivePos p.servers (p.current + 1) p.servers.length = some pr) :
    p.NextServer = .ok (p.servers[pr.2]?,
      { p with current := if pr.1 = p.current + 1 then p.current + 1 else pr.2 }) := by
  rw [NextServer_eq p hn hc, hfp]

/-- Claim C3 counterexample: on the pool with backends a (dead), b, c
(alive) and cursor 5, `NextServer` returns backend b but stores cursor 1,
which is not at least one greater than the starting value 5 — the cursor
is not monotonically increasing. -/
theorem claim3_cex :
    ServerPool.NextServer
        ⟨[⟨"http://a", false⟩, ⟨"http://b", true⟩, ⟨"http://c", true⟩], 5⟩ =
      .ok (some ⟨"http://b", true⟩,
        ⟨[⟨"http://a", false⟩, ⟨"http://b", true⟩, ⟨"http://c", true⟩], 1⟩) ∧
    ¬ (5 + 1 ≤ 1) :=
  ⟨by decide, by decide⟩

/-- Claim C3 (amended): `NextServer` first raises the cursor by one (the
atomic add), but when the live backend is found past the immediate next
slot the cursor is stored back to that backend's index, which can be
smaller than the starting value; the stored cursor after a call is
therefore either `current + 1` or the index of the returned backend —
it is not monotonically increasing. -/
theorem claim3_cursor_after_call (p : ServerPool) (res : Option Server) (p2 : ServerPool)
    (hn : 0 < p.servers.length) (hc : p.current + 1 + p.servers.length < INT64_HALF)
    (h : p.NextServer = .ok (res, p2)) :
    p2.current = p.current + 1 ∨
      ∃ idx, idx < p.servers.length ∧ p2.current = idx ∧ res = p.servers[idx]? := by
  rw [NextServer_eq p hn hc] at h
  cases hfp : firstAlivePos p.servers (p.current + 1) p.servers.length with
  | none =>
    rw [hfp] at h
    simp only [GoResult.ok.injEq, Prod.mk.injEq] at h
    left
    rw [← h.2]
  | some pr =>
    rw [hfp] at h
    simp only [GoResult.ok.injEq, Prod.mk.injEq] at h
    obtain ⟨h1, h2, h3, h4⟩ := firstAlivePos_spec p.servers _ _ _ _ hfp
    obtain ⟨hres, hp2⟩ := h
    by_cases hp : pr.1 = p.current + 1
    · left
      rw [← hp2]
      simp [hp]
    · right
      refine ⟨pr.2, ?_, ?_, hres.symm⟩
      · rw [h3]; exact Nat.mod_lt _ hn
      · rw [← hp2]; simp [hp]

/-- Claim C3 amended, witness at a concrete input. -/
theorem claim3_witness :
    (⟨[⟨"http://a", true⟩], 1⟩ : ServerPool).current = (0 : Nat) + 1 ∨
      ∃ idx, idx < (⟨[⟨"http://a", true⟩], 0⟩ : ServerPool).servers.length ∧
        (⟨[⟨"http://a", true⟩], 1⟩ : ServerPool).current = idx ∧
        (some (⟨"http://a", true⟩ : Server) : Option Server) =
          (⟨[⟨"http://a", true⟩], 0⟩ : ServerPool).servers[idx]? :=
  claim3_cursor_after_call ⟨[⟨"http://a", true⟩], 0⟩ (some ⟨"http://a", true⟩)
    ⟨[⟨"http://a", true⟩], 1⟩ (by decide) (by decide) (by decide)

/-- Claim C10 counterexample: on an empty pool `NextServer` does not
panic with a division by zero — the loop bound `l = len + nextIndex`
equals `nextIndex`, the loop body never runs, and the call returns nil
after the cursor increment. -/
theorem claim10_cex :
    ServerPool.NextServer ⟨[], 7⟩ = .ok (none, ⟨[], 8⟩) ∧
    ¬ ServerPool.NextServer ⟨[], 7⟩ = .panic :=
  ⟨by decide, by decide⟩

/-- Claim C10 (amended): on every non-empty pool whose incremented cursor
is in the `int64`-safe range, `NextServer` does not panic — every index
it accesses is in bounds — and it returns either nil or a member of the
pool; on an empty pool the scan bound equals the start index, so the
loop body (and its modulo) never executes and `NextServer` returns nil
with the cursor incremented. -/
theorem claim10_totality :
    (∀ p : ServerPool, 0 < p.servers.length →
      p.current + 1 + p.servers.length < INT64_HALF →
      ∃ res p2, p.NextServer = .ok (res, p2) ∧
        (res = none ∨ ∃ s, res = some s ∧ s ∈ p.servers)) ∧
    (∀ p : ServerPool, p.servers = [] →
      p.NextServer = .ok (none, { p with current := (p.current + 1) % UINT64_MOD })) := by
  constructor
  · intro p hn hc
    cases hfp : firstAlivePos p.servers (p.current + 1) p.servers.length with
    | none => exact ⟨none, _, NextServer_none p hn hc hfp, Or.inl rfl⟩
    | some pr =>
      obtain ⟨h1, h2, h3, h4⟩ := firstAlivePos_spec p.servers _ _ _ _ hfp
      have hidx : pr.2 < p.servers.length := by rw [h3]; exact Nat.mod_lt _ hn
      refine ⟨p.servers[pr.2]?, _, NextServer_some p hn hc pr hfp, Or.inr ?_⟩
      exact ⟨p.servers[pr.2], List.getElem?_eq_getElem hidx, List.getElem_mem hidx⟩
  · intro p hps
    have hu : 0 < UINT64_MOD := by norm_num [UINT64_MOD]
    obtain ⟨servers, cur⟩ := p
    cases hps
    have hmodlt : (cur + 1) % UINT64_MOD < UINT64_MOD := Nat.mod_lt _ hu
    obtain ⟨hr1, hr2⟩ := toInt64_range _ hmodlt
    have hw : iwrap64 (toInt64 ((cur + 1) % UINT64_MOD)) =
        toInt64 ((cur + 1) % UINT64_MOD) := iwrap64_of_range hr1 hr2
    simp [ServerPool.NextServer, hw, scanGo]

/-- Claim C10 amended, witness at concrete inputs (a one-backend pool and
the empty pool). -/
theorem claim10_witness :
    (∃ res p2, ServerPool.NextServer ⟨[⟨"http://a", true⟩], 0⟩ = .ok (res, p2) ∧
      (res = none ∨ ∃ s, res = some s ∧
        s ∈ (⟨[⟨"http://a", true⟩], 0⟩ : ServerPool).servers)) ∧
    ServerPool.NextServer ⟨[], 7⟩ =
      .ok (none, { (⟨[], 7⟩ : ServerPool) with current := (7 + 1) % UINT64_MOD }) :=
  ⟨claim10_totality.1 ⟨[⟨"http://a", true⟩], 0⟩ (by decide) (by decide),
   claim10_totality.2 ⟨[], 7⟩ rfl⟩

/-- Claim C5: when exactly one backend's liveness flag is true, every
call to `NextServer` returns that backend (for any cursor value in the
`int64`-safe range). -/
theorem claim5_single_alive (p : ServerPool) (i : Nat) (hi : i < p.servers.length)
    (hal : aliveAt p.servers i = true)
    (huniq : ∀ j, j < p.servers.length → j ≠ i → aliveAt p.servers j = false)
    (hc : p.current + 1 + p.servers.length < INT64_HALF) :
    ∃ p2, p.NextServer = .ok (some p.servers[i], p2) := by
  have hn : 0 < p.servers.length := by omega
  obtain ⟨k, hk, hkm⟩ := reach_residue p.servers.length (p.current + 1) i hn hi
  have hsome : (firstAlivePos p.servers (p.current + 1) p.servers.length).isSome :=
    firstAlivePos_isSome p.servers hn p.servers.length (p.current + 1)
      ⟨k, hk, by rw [hkm]; exact hal⟩
  obtain ⟨pr, hfp⟩ := Option.isSome_iff_exists.mp hsome
  obtain ⟨h1, h2, h3, h4⟩ := firstAlivePos_spec p.servers _ _ _ _ hfp
  have hidx : pr.2 < p.servers.length := by rw [h3]; exact Nat.mod_lt _ hn
  have hieq : pr.2 = i := by
    by_contra hne
    have hdead := huniq pr.2 hidx hne
    rw [h4] at hdead
    cases hdead
  subst hieq
  refine ⟨{ p with current := if pr.1 = p.current + 1 then p.current + 1 else pr.2 }, ?_⟩
  rw [NextServer_some p hn hc pr hfp, List.getElem?_eq_getElem hidx]

theorem firstAlivePos_findSome (servers : List Server) (hn : 0 < servers.length) :
    ∀ (fuel j : Nat),
      (match firstAlivePos servers j fuel with
        | none => none
        | some pr => servers[pr.2]?) =
      (List.range fuel).findSome?
        (fun k => aliveProbe servers ((j + k) % servers.length)) := by
  intro fuel
  induction fuel with
  | zero => intro j; rfl
  | succ f ih =>
    intro j
    have hmod : j % servers.length < servers.length := Nat.mod_lt _ hn
    have hget : servers[j % servers.length]? = some servers[j % servers.length] :=
      List.getElem?_eq_getElem hmod
    rw [firstAlivePos, hget, List.range_succ_eq_map, List.findSome?_cons]
    have h0 : (j + 0) % servers.length = j % servers.length := by simp
    by_cases ha : servers[j % servers.length].IsAlive
    · simp [aliveProbe, h0, hget, ha]
    · simp only [Bool.not_eq_true] at ha
      have hprobe : aliveProbe servers ((j + 0) % servers.length) = none := by
        simp [aliveProbe, h0, hget, ha]
      simp only [ha, Bool.false_eq_true, if_false, hprobe]
      rw [List.findSome?_map]
      have hfun : ((fun k => aliveProbe servers ((j + k) % servers.length)) ∘ Nat.succ) =
          (fun k => aliveProbe servers ((j + 1 + k) % servers.length)) := by
        funext k
        have : j + (k + 1) = j + 1 + k := by ring
        simp [Function.comp, Nat.succ_eq_add_one, this]
      rw [hfun]
      exact ih (j + 1)

/-- Claim C4: for every non-empty pool (cursor in the `int64`-safe
range), `NextServer` increments the cursor and returns exactly what the
spec's scan describes — the first alive backend among `len` consecutive
slots starting at `cursor mod len`, in ascending order (`selectNextSpec`)
— and when every backend is dead it returns nil and the dispatch handler
answers 503 without forwarding to any backend. -/
theorem claim4_selection (p : ServerPool)
    (hn : 0 < p.servers.length) (hc : p.current + 1 + p.servers.length < INT64_HALF) :
    (∃ p2, p.NextServer = .ok (selectNextSpec p, p2)) ∧
    ((∀ s ∈ p.servers, s.IsAlive = false) →
      p.NextServer = .ok (none, { p with current := p.current + 1 }) ∧
      ∀ (o : Nat → Bool) (c : Bool) (ctx : ReqCtx) (cl : Nat) (tr : List Event),
        GetAttemptsFromContext ctx ≤ MAX_ATTEMPTS →
        step o c ⟨.dispatch ctx, p, cl, tr⟩ =
          ⟨.done503, { p with current := p.current + 1 }, cl, tr ++ [.respond503]⟩) := by
  have hhalf : INT64_HALF < UINT64_MOD := by norm_num [INT64_HALF, UINT64_MOD]
  have h1 : (p.current + 1) % UINT64_MOD = p.current + 1 := Nat.mod_eq_of_lt (by omega)
  have hsel : selectNextSpec p =
      (match firstAlivePos p.servers (p.current + 1) p.servers.length with
        | none => none
        | some pr => p.servers[pr.2]?) := by
    rw [firstAlivePos_findSome p.servers hn p.servers.length (p.current + 1)]
    simp only [selectNextSpec, h1]
    congr 1
    funext k
    rw [Nat.mod_add_mod]
  constructor
  · cases hfp : firstAlivePos p.servers (p.current + 1) p.servers.length with
    | none =>
      refine ⟨{ p with current := p.current + 1 }, ?_⟩
      rw [NextServer_none p hn hc hfp, hsel, hfp]
    | some pr =>
      refine ⟨{ p with current := if pr.1 = p.current + 1 then p.current + 1 else pr.2 }, ?_⟩
      rw [NextServer_some p hn hc pr hfp, hsel, hfp]
  · intro hdead
    have hfp := firstAlivePos_none_of_dead p.servers hdead p.servers.length (p.current + 1)
    have hns := NextServer_none p hn hc hfp
    refine ⟨hns, ?_⟩
    intro o c ctx cl tr hat
    have hnotgt : ¬ (GetAttemptsFromContext ctx > MAX_ATTEMPTS) := by omega
    simp [step, loadBalanceStep, hnotgt, hns]

/-- Claim C4, witness: the all-dead one-backend pool — `NextServer`
agrees with `selectNextSpec`, returns nil, and the dispatch step answers
503 without any forward event. -/
theorem claim4_witness :
    (∃ p2, ServerPool.NextServer ⟨[⟨"http://a", false⟩], 0⟩ =
      .ok (selectNextSpec ⟨[⟨"http://a", false⟩], 0⟩, p2)) ∧
    ServerPool.NextServer ⟨[⟨"http://a", false⟩], 0⟩ =
      .ok (none, { (⟨[⟨"http://a", false⟩], 0⟩ : ServerPool) with current := 0 + 1 }) ∧
    step oracleFail false ⟨.dispatch ⟨none, none⟩, ⟨[⟨"http://a", false⟩], 0⟩, 0, []⟩ =
      ⟨.done503, { (⟨[⟨"http://a", false⟩], 0⟩ : ServerPool) with current := 0 + 1 }, 0,
        [] ++ [.respond503]⟩ :=
  ⟨(claim4_selection ⟨[⟨"http://a", false⟩], 0⟩ (by decide) (by decide)).1,
   ((claim4_selection ⟨[⟨"http://a", false⟩], 0⟩ (by decide) (by decide)).2 (by decide)).1,
   ((claim4_selection ⟨[⟨"http://a", false⟩], 0⟩ (by decide) (by decide)).2 (by decide)).2
     oracleFail false ⟨none, none⟩ 0 [] (by decide)⟩

/-- Claim C5, witness: a two-backend pool whose only alive backend is at
index 1 is always selected. -/
theorem claim5_witness :
    ∃ p2, ServerPool.NextServer ⟨[⟨"http://a", false⟩, ⟨"http://b", true⟩], 0⟩ =
      .ok (some (⟨[⟨"http://a", false⟩, ⟨"http://b", true⟩], 0⟩ :
        ServerPool).servers[1], p2) :=
  claim5_single_alive ⟨[⟨"http://a", false⟩, ⟨"http://b", true⟩], 0⟩ 1 (by decide)
    (by decide) (by decide) (by decide)

theorem setStatusList_nomatch (u : String) (a : Bool) :
    ∀ l : List Server, (∀ s ∈ l, ¬ s.url = u) → setStatusList l u a = (l, []) := by
  intro l
  induction l with
  | nil => intro _; rfl
  | cons s rest ih =>
    intro h
    have hs : ¬ s.url = u := h s (by simp)
    have hrest := ih (fun x hx => h x (by simp [hx]))
    simp [setStatusList, hs, hrest]

theorem setStatusList_match (u : String) (a : Bool) :
    ∀ (l : List Server) (j : Nat) (hj : j < l.length), l[j].url = u →
      (∀ i (hi : i < l.length), i < j → ¬ l[i].url = u) →
      setStatusList l u a = (l.set j { l[j] with alive := a }, [.unlocked u a]) := by
  intro l
  induction l with
  | nil => intro j hj; simp at hj
  | cons s rest ih =>
    intro j hj hmatch hfirst
    cases j with
    | zero =>
      simp only [List.getElem_cons_zero] at hmatch ⊢
      simp [setStatusList, hmatch]
    | succ j' =>
      have hs : ¬ s.url = u := by
        have := hfirst 0 (by omega) (by omega)
        simpa using this
      simp only [List.getElem_cons_succ] at hmatch ⊢
      have hfirst' : ∀ i (hi : i < rest.length), i < j' → ¬ rest[i].url = u := by
        intro i hi hij
        have := hfirst (i + 1) (by simpa using Nat.succ_lt_succ hi) (by omega)
        simpa using this
      have hrest := ih j' (by simpa using hj) hmatch hfirst'
      simp [setStatusList, hs, hrest]

/-- Claim C8: `SetServerStatus` leaves the cursor untouched; when no
backend's URL equals the given address the whole pool is unchanged, and
otherwise exactly the first matching backend has its liveness flag set,
all other entries of the backends sequence being unchanged
(`List.set` on the first matching index). -/
theorem claim8_frame (p : ServerPool) (u : String) (a : Bool) :
    (p.SetServerStatus u a).1.current = p.current ∧
    ((∀ s ∈ p.servers, ¬ s.url = u) → (p.SetServerStatus u a).1 = p) ∧
    (∀ j (hj : j < p.servers.length), p.servers[j].url = u →
      (∀ i (hi : i < p.servers.length), i < j → ¬ p.servers[i].url = u) →
      (p.SetServerStatus u a).1.servers =
        p.servers.set j { p.servers[j] with alive := a }) := by
  refine ⟨rfl, ?_, ?_⟩
  · intro h
    simp [ServerPool.SetServerStatus, setStatusList_nomatch u a p.servers h]
  · intro j hj hm hf
    simp [ServerPool.SetServerStatus, setStatusList_match u a p.servers j hj hm hf]

/-- Claim C8, witness: a no-match call is a no-op and a matching call
rewrites exactly the matched entry. -/
theorem claim8_witness :
    (ServerPool.SetServerStatus ⟨[⟨"http://a", true⟩], 3⟩ "http://z" false).1 =
      ⟨[⟨"http://a", true⟩], 3⟩ ∧
    (ServerPool.SetServerStatus ⟨[⟨"http://a", true⟩, ⟨"http://b", true⟩], 3⟩
        "http://b" false).1.servers =
      [⟨"http://a", true⟩, ⟨"http://b", true⟩].set 1
        { (⟨"http://b", true⟩ : Server) with alive := false } :=
  ⟨(claim8_frame ⟨[⟨"http://a", true⟩], 3⟩ "http://z" false).2.1 (by decide),
   (claim8_frame ⟨[⟨"http://a", true⟩, ⟨"http://b", true⟩], 3⟩ "http://b" false).2.2
     1 (by decide) (by decide) (by decide)⟩

/-- Claim C9 (the code at the failing input): the health prober's writes
go through the lock-guarded `SetAlive`, but `SetServerStatus` — the
retry-exhaustion path — performs a direct unsynchronized assignment to
the liveness flag, not a lock-guarded one. -/
theorem claim9_unlocked_write :
    (ServerPool.SetServerStatus ⟨[⟨"http://a", true⟩], 0⟩ "http://a" false).2 =
      [AliveWrite.unlocked "http://a" false] ∧
    (Server.SetAlive ⟨"http://a", true⟩ false).2 = AliveWrite.locked "http://a" false ∧
    (ServerPool.HealthCheckTick ⟨[⟨"http://a", true⟩, ⟨"http://b", false⟩], 0⟩
        (fun _ => true)).2 =
      [AliveWrite.locked "http://a" true, AliveWrite.locked "http://b" true] :=
  ⟨rfl, rfl, rfl⟩

/-- Claim C7 counterexample: with the request's context cancelled while
the retry delay is pending (retries = 0 at `handleError`), the machine
still re-invokes forwarding to the same backend instead of failing — the
pending retry is not abandoned. -/
theorem claim7_cex :
    (step oracleFail true
      ⟨.handleError "http://b" ⟨none, none⟩, ⟨[⟨"http://b", true⟩], 0⟩, 5, []⟩).phase =
      .forwardTo "http://b" ⟨none, some 1⟩ ∧
    ¬ (step oracleFail true
      ⟨.handleError "http://b" ⟨none, none⟩, ⟨[⟨"http://b", true⟩], 0⟩, 5, []⟩).phase =
      .done503 :=
  ⟨rfl, by decide⟩

/-- Claim C7 (amended): the error handler's `select` has only the timer
case, so the dispatch machine's behaviour is identical whether or not
the inbound request's context is cancelled, and in particular a pending
retry proceeds — forwarding is re-invoked after the delay — even when
the context has been cancelled. -/
theorem claim7_cancellation_ignored :
    (∀ (o : Nat → Bool) (st : DState), step o true st = step o false st) ∧
    (∀ (o : Nat → Bool) (c : Bool) (u : String) (a? : Option Nat) (p : ServerPool)
      (cl : Nat) (tr : List Event),
      step o c ⟨.handleError u ⟨a?, none⟩, p, cl, tr⟩ =
        ⟨.forwardTo u ⟨a?, some 1⟩, p, cl, tr⟩) := by
  constructor
  · intro o st
    obtain ⟨ph, pool, cl, tr⟩ := st
    cases ph <;> rfl
  · intro o c u a? p cl tr
    rfl

/-- Claim C1 counterexample: in the all-fail run against `poolABC`, after
the first backend (s2) exhausts its retries and dispatch escalates, the
first forwarding failure against the newly selected backend s3 reads
retries = 3 (the `Retry` value carried over in the context), not 0, and
the machine marks s3 down instead of entering the bounded-retry
branch. -/
theorem claim1_cex :
    (run oracleFail false 11 startABC).phase =
      .handleError "http://s3" ⟨some 2, some 3⟩ ∧
    GetRetriesFromContext (⟨some 2, some 3⟩ : ReqCtx) = 3 ∧
    ¬ GetRetriesFromContext (⟨some 2, some 3⟩ : ReqCtx) = 0 ∧
    (run oracleFail false 12 startABC).phase = .dispatch ⟨some 3, some 3⟩ ∧
    (run oracleFail false 12 startABC).trace.count (.markDown "http://s3") = 1 :=
  ⟨by decide, rfl, by decide, by decide, by decide⟩

/-- Claim C1 (amended): when `retries ≥ MAX_RETRIES` the error handler
marks the backend not-alive via `SetServerStatus`, increments `attempts`
in a new context and restarts dispatch — but the `Retry` value is not
reset: it is carried over unchanged into the new context, so the next
dispatch attempt starts with the same `retries ≥ MAX_RETRIES`, and its
first forwarding failure enters the escalation branch, not the
bounded-retry branch. -/
theorem claim1_escalation (u : String) (ctx : ReqCtx) (p : ServerPool) (o : Nat → Bool)
    (c : Bool) (cl : Nat) (tr : List Event)
    (h : MAX_RETRIES ≤ GetRetriesFromContext ctx) :
    step o c ⟨.handleError u ctx, p, cl, tr⟩ =
      ⟨.dispatch (ctx.withAttempts (GetAttemptsFromContext ctx + 1)),
        (p.SetServerStatus u false).1, cl, tr ++ [.markDown u]⟩ ∧
    GetRetriesFromContext (ctx.withAttempts (GetAttemptsFromContext ctx + 1)) =
      GetRetriesFromContext ctx := by
  have hlt : ¬ (GetRetriesFromContext ctx < MAX_RETRIES) := by omega
  constructor
  · simp only [step, errorHandlerStep, hlt, if_false]
  · rfl

/-- Claim C1 amended, witness at a concrete escalated context. -/
theorem claim1_witness :
    MAX_RETRIES ≤ GetRetriesFromContext (⟨none, some 3⟩ : ReqCtx) ∧
    (step oracleFail false ⟨.handleError "http://x" ⟨none, some 3⟩, ⟨[], 0⟩, 0, []⟩ =
      ⟨.dispatch ((⟨none, some 3⟩ : ReqCtx).withAttempts
          (GetAttemptsFromContext (⟨none, some 3⟩ : ReqCtx) + 1)),
        ((⟨[], 0⟩ : ServerPool).SetServerStatus "http://x" false).1, 0,
        [] ++ [.markDown "http://x"]⟩ ∧
      GetRetriesFromContext ((⟨none, some 3⟩ : ReqCtx).withAttempts
          (GetAttemptsFromContext (⟨none, some 3⟩ : ReqCtx) + 1)) =
        GetRetriesFromContext (⟨none, some 3⟩ : ReqCtx)) :=
  ⟨by decide, claim1_escalation "http://x" ⟨none, some 3⟩ ⟨[], 0⟩ oracleFail false 0 []
    (by decide)⟩

/-- Claim C2 counterexample: in the all-fail run against `poolABC` the
request ends in 503, and backend s3 is marked not-alive after exactly
one forwarding attempt — not after `1 + MAX_RETRIES` attempts as the
claim's "retried exactly MAX_RETRIES times before being marked
not-alive" requires. -/
theorem claim2_cex :
    (run oracleFail false 16 startABC).phase = .done503 ∧
    (run oracleFail false 16 startABC).trace.count (.forward "http://s2") = 4 ∧
    (run oracleFail false 16 startABC).trace.count (.markDown "http://s3") = 1 ∧
    (run oracleFail false 16 startABC).trace.count (.forward "http://s3") = 1 ∧
    ¬ (run oracleFail false 16 startABC).trace.count (.forward "http://s3") =
        1 + MAX_RETRIES :=
  ⟨by decide, by decide, by decide, by decide, by decide⟩

/-- Claim C2 (amended): with every forwarding failing, a backend
selected with no `Retry` value in the context (the first one) is
forwarded to `1 + MAX_RETRIES` times — retried exactly `MAX_RETRIES`
times — before being marked not-alive and escalating; a backend selected
after an escalation (context carrying `retries ≥ MAX_RETRIES`) is marked
not-alive after a single forwarding attempt with zero retries; and
dispatch fails the request with 503 as soon as `attempts` exceeds
`MAX_ATTEMPTS` (attempts defaults to 1). -/
theorem claim2_retry_attempt_bounds :
    (∀ (u : String) (a? : Option Nat) (p : ServerPool) (cl : Nat),
      run oracleFail false 8 ⟨.forwardTo u ⟨a?, none⟩, p, cl, []⟩ =
        ⟨.dispatch ⟨some (a?.getD 1 + 1), some 3⟩, (p.SetServerStatus u false).1,
          cl + 4, [.forward u, .forward u, .forward u, .forward u, .markDown u]⟩) ∧
    (∀ (u : String) (a? : Option Nat) (r : Nat) (p : ServerPool) (cl : Nat),
      MAX_RETRIES ≤ r →
      run oracleFail false 2 ⟨.forwardTo u ⟨a?, some r⟩, p, cl, []⟩ =
        ⟨.dispatch ⟨some (a?.getD 1 + 1), some r⟩, (p.SetServerStatus u false).1,
          cl + 1, [.forward u, .markDown u]⟩) ∧
    (∀ (o : Nat → Bool) (c : Bool) (ctx : ReqCtx) (p : ServerPool) (cl : Nat)
      (tr : List Event),
      MAX_ATTEMPTS < GetAttemptsFromContext ctx →
      step o c ⟨.dispatch ctx, p, cl, tr⟩ = ⟨.done503, p, cl, tr ++ [.respond503]⟩) ∧
    GetAttemptsFromContext ⟨none, none⟩ = 1 := by
  refine ⟨?_, ?_, ?_, rfl⟩
  · intro u a? p cl
    rfl
  · intro u a? r p cl hr
    have hlt : ¬ (GetRetriesFromContext (⟨a?, some r⟩ : ReqCtx) < MAX_RETRIES) := by
      simp only [GetRetriesFromContext, Option.getD_some]
      omega
    have h2 : run oracleFail false 2 ⟨.forwardTo u ⟨a?, some r⟩, p, cl, []⟩ =
        step oracleFail false (step oracleFail false
          ⟨.forwardTo u ⟨a?, some r⟩, p, cl, []⟩) := rfl
    have h3 : step oracleFail false ⟨.forwardTo u ⟨a?, some r⟩, p, cl, []⟩ =
        ⟨.handleError u ⟨a?, some r⟩, p, cl + 1, [.forward u]⟩ := rfl
    rw [h2, h3]
    simp only [step, errorHandlerStep, hlt, if_false]
    rfl
  · intro o c ctx p cl tr hgt
    simp only [step, loadBalanceStep, if_pos hgt]

/-- Claim C2 amended, witness at concrete inputs. -/
theorem claim2_witness :
    (run oracleFail false 8 ⟨.forwardTo "http://x" ⟨none, none⟩, ⟨[], 0⟩, 0, []⟩ =
      ⟨.dispatch ⟨some ((none : Option Nat).getD 1 + 1), some 3⟩,
        ((⟨[], 0⟩ : ServerPool).SetServerStatus "http://x" false).1, 0 + 4,
        [.forward "http://x", .forward "http://x", .forward "http://x",
          .forward "http://x", .markDown "http://x"]⟩) ∧
    MAX_RETRIES ≤ 5 ∧
    (run oracleFail false 2 ⟨.forwardTo "http://x" ⟨none, some 5⟩, ⟨[], 0⟩, 0, []⟩ =
      ⟨.dispatch ⟨some ((none : Option Nat).getD 1 + 1), some 5⟩,
        ((⟨[], 0⟩ : ServerPool).SetServerStatus "http://x" false).1, 0 + 1,
        [.forward "http://x", .markDown "http://x"]⟩) ∧
    MAX_ATTEMPTS < GetAttemptsFromContext (⟨some 4, none⟩ : ReqCtx) ∧
    step oracleFail false ⟨.dispatch ⟨some 4, none⟩, ⟨[], 0⟩, 0, []⟩ =
      ⟨.done503, ⟨[], 0⟩, 0, [] ++ [.respond503]⟩ :=
  ⟨claim2_retry_attempt_bounds.1 "http://x" none ⟨[], 0⟩ 0,
   by decide,
   claim2_retry_attempt_bounds.2.1 "http://x" none 5 ⟨[], 0⟩ 0 (by decide),
   by decide,
   claim2_retry_attempt_bounds.2.2.1 oracleFail false ⟨some 4, none⟩ ⟨[], 0⟩ 0 []
     (by decide)⟩

/-!
Fairness of the round-robin selection (claim C6).  The positions
selected by successive `NextServer` calls are described by `lineSeq`:
consecutive first-alive positions on the number line.  Alive slots are
periodic with period `length`, every window of `length` consecutive
positions holds `aliveN` alive positions, and `aliveN` consecutive
selections advance by exactly one period — so they visit every alive
slot exactly once.
-/

theorem firstAlivePos_add_n (servers : List Server) :
    ∀ (fuel j : Nat), firstAlivePos servers (j + servers.length) fuel =
      (firstAlivePos servers j fuel).map (fun pr => (pr.1 + servers.length, pr.2)) := by
  intro fuel
  induction fuel with
  | zero => intro j; rfl
  | succ f ih =>
    intro j
    rw [firstAlivePos, firstAlivePos]
    have hmod : (j + servers.length) % servers.length = j % servers.length :=
      Nat.add_mod_right j servers.length
    rw [hmod]
    cases hg : servers[j % servers.length]? with
    | none => rfl
    | some s =>
      by_cases ha : s.IsAlive
      · simp only [ha, if_true]
        rfl
      · simp only [Bool.not_eq_true] at ha
        simp only [ha, Bool.false_eq_true, if_false]
        have harr : j + servers.length + 1 = (j + 1) + servers.length := by ring
        rw [harr, ih (j + 1)]

theorem firstAlivePos_add_mul (servers : List Server) :
    ∀ (k fuel j : Nat), firstAlivePos servers (j + servers.length * k) fuel =
      (firstAlivePos servers j fuel).map
        (fun pr => (pr.1 + servers.length * k, pr.2)) := by
  intro k
  induction k with
  | zero =>
    intro fuel j
    simp
  | succ k ih =>
    intro fuel j
    have harr : j + servers.length * (k + 1) = (j + servers.length * k) + servers.length := by
      ring
    rw [harr, firstAlivePos_add_n, ih]
    cases firstAlivePos servers j fuel with
    | none => rfl
    | some pr =>
      show some (pr.1 + servers.length * k + servers.length, pr.2) =
          some (pr.1 + servers.length * (k + 1), pr.2)
      rw [show pr.1 + servers.length * k + servers.length =
          pr.1 + servers.length * (k + 1) from by ring]

theorem lineNextD_add_mul (servers : List Server) (k j : Nat) :
    lineNextD servers (j + servers.length * k) =
      lineNextD servers j + servers.length * k := by
  unfold lineNextD
  rw [firstAlivePos_add_mul]
  cases firstAlivePos servers j servers.length with
  | none => rfl
  | some pr => rfl

theorem lineSeq_add_mul (servers : List Server) (k s0 : Nat) :
    ∀ t, lineSeq servers (s0 + servers.length * k) t =
      lineSeq servers s0 t + servers.length * k := by
  intro t
  induction t with
  | zero => exact lineNextD_add_mul servers k s0
  | succ t ih =>
    rw [lineSeq, lineSeq, ih]
    have harr : lineSeq servers s0 t + servers.length * k + 1 =
        (lineSeq servers s0 t + 1) + servers.length * k := by ring
    rw [harr, lineNextD_add_mul]

theorem lineSeq_succ_start (servers : List Server) (s0 : Nat) :
    ∀ t, lineSeq servers s0 (t + 1) = lineSeq servers (lineNextD servers s0 + 1) t := by
  intro t
  induction t with
  | zero => rfl
  | succ t ih =>
    rw [lineSeq, ih, lineSeq]

theorem lineNextD_spec (servers : List Server) (hn : 0 < servers.length) (m0 : Nat)
    (hm0 : m0 < servers.length) (hal0 : aliveAt servers m0 = true) (j : Nat) :
    j ≤ lineNextD servers j ∧ lineNextD servers j < j + servers.length ∧
      aliveAt servers (lineNextD servers j % servers.length) = true ∧
      ∀ r, j ≤ r → r < lineNextD servers j →
        aliveAt servers (r % servers.length) = false := by
  obtain ⟨k, hk, hkm⟩ := reach_residue servers.length j m0 hn hm0
  have hsome := firstAlivePos_isSome servers hn servers.length j
    ⟨k, hk, by rw [hkm]; exact hal0⟩
  obtain ⟨⟨pos, idx⟩, hfp⟩ := Option.isSome_iff_exists.mp hsome
  obtain ⟨h1, h2, h3, h4⟩ := firstAlivePos_spec servers _ _ _ _ hfp
  have hD : lineNextD servers j = pos := by unfold lineNextD; rw [hfp]
  rw [hD]
  refine ⟨h1, h2, ?_, ?_⟩
  · rw [← h3]; exact h4
  · exact fun r hr1 hr2 => firstAlivePos_min servers _ _ _ _ hfp r hr1 hr2

theorem lineSeq_step_bounds (servers : List Server) (hn : 0 < servers.length) (m0 : Nat)
    (hm0 : m0 < servers.length) (hal0 : aliveAt servers m0 = true) (s0 t : Nat) :
    lineSeq servers s0 t < lineSeq servers s0 (t + 1) ∧
      lineSeq servers s0 (t + 1) ≤ lineSeq servers s0 t + servers.length := by
  obtain ⟨ha, hb, _, _⟩ :=
    lineNextD_spec servers hn m0 hm0 hal0 (lineSeq servers s0 t + 1)
  rw [lineSeq]
  omega

theorem lineSeq_alive (servers : List Server) (hn : 0 < servers.length) (m0 : Nat)
    (hm0 : m0 < servers.length) (hal0 : aliveAt servers m0 = true) (s0 : Nat) :
    ∀ t, aliveAt servers (lineSeq servers s0 t % servers.length) = true := by
  intro t
  cases t with
  | zero => exact (lineNextD_spec servers hn m0 hm0 hal0 s0).2.2.1
  | succ t =>
    rw [lineSeq]
    exact (lineNextD_spec servers hn m0 hm0 hal0 (lineSeq servers s0 t + 1)).2.2.1

theorem lineSeq_dead_between (servers : List Server) (hn : 0 < servers.length) (m0 : Nat)
    (hm0 : m0 < servers.length) (hal0 : aliveAt servers m0 = true) (s0 t r : Nat)
    (h1 : lineSeq servers s0 t < r) (h2 : r < lineSeq servers s0 (t + 1)) :
    aliveAt servers (r % servers.length) = false := by
  have h := (lineNextD_spec servers hn m0 hm0 hal0 (lineSeq servers s0 t + 1)).2.2.2
  rw [lineSeq] at h2
  exact h r (by omega) h2

theorem lineSeq_le_of_le (servers : List Server) (hn : 0 < servers.length) (m0 : Nat)
    (hm0 : m0 < servers.length) (hal0 : aliveAt servers m0 = true) (s0 : Nat)
    {u v : Nat} (huv : u ≤ v) : lineSeq servers s0 u ≤ lineSeq servers s0 v := by
  induction v with
  | zero =>
    have : u = 0 := Nat.le_zero.mp huv
    rw [this]
  | succ v ihv =>
    rcases Nat.eq_or_lt_of_le huv with rfl | h
    · exact le_refl _
    · have hle := ihv (by omega)
      have hstep := (lineSeq_step_bounds servers hn m0 hm0 hal0 s0 v).1
      omega

theorem icount_split (servers : List Server) (a L1 L2 : Nat) :
    icount servers a (L1 + L2) = icount servers a L1 + icount servers (a + L1) L2 := by
  unfold icount
  rw [List.range_add, List.countP_append, List.countP_map]
  have hfeq : ((fun k => aliveAt servers ((a + k) % servers.length)) ∘ fun x => L1 + x) =
      (fun k => aliveAt servers ((a + L1 + k) % servers.length)) := by
    funext k
    simp only [Function.comp_apply]
    rw [show a + (L1 + k) = a + L1 + k from by ring]
  rw [hfeq]

theorem icount_one (servers : List Server) (a : Nat) :
    icount servers a 1 = if aliveAt servers (a % servers.length) then 1 else 0 := by
  unfold icount
  have h1 : List.range 1 = [0] := rfl
  rw [h1]
  simp [List.countP_cons]

theorem icount_pos_of (servers : List Server) (a L r : Nat) (h1 : a ≤ r) (h2 : r < a + L)
    (hal : aliveAt servers (r % servers.length) = true) : 1 ≤ icount servers a L := by
  unfold icount
  have hpos : 0 < (List.range L).countP
      (fun k => aliveAt servers ((a + k) % servers.length)) := by
    refine List.countP_pos_iff.mpr ⟨r - a, List.mem_range.mpr (by omega), ?_⟩
    have : a + (r - a) = r := by omega
    rw [this]
    exact hal
  omega

theorem icount_zero_of_dead (servers : List Server) (a L : Nat)
    (h : ∀ r, a ≤ r → r < a + L → aliveAt servers (r % servers.length) = false) :
    icount servers a L = 0 := by
  unfold icount
  apply List.countP_eq_zero.mpr
  intro k hk
  rw [List.mem_range] at hk
  simp [h (a + k) (by omega) (by omega)]

theorem countP_range_rotate (f : Nat → Bool) (n' : Nat) (hper : f (n' + 1) = f 0) :
    (List.range (n' + 1)).countP (fun k => f (k + 1)) =
      (List.range (n' + 1)).countP f := by
  conv_lhs => rw [List.range_succ]
  conv_rhs => rw [List.range_succ_eq_map]
  rw [List.countP_append]
  conv_rhs => rw [List.countP_cons, List.countP_map]
  have hsingle : List.countP (fun k => f (k + 1)) [n'] =
      if f (n' + 1) = true then 1 else 0 := by
    simp [List.countP_cons]
  rw [hsingle, hper]
  have hcomp : List.countP (f ∘ Nat.succ) (List.range n') =
      List.countP (fun k => f (k + 1)) (List.range n') := rfl
  rw [hcomp]

theorem icount_shift (servers : List Server) (hn : 0 < servers.length) (a : Nat) :
    icount servers (a + 1) servers.length = icount servers a servers.length := by
  obtain ⟨n', hn'⟩ : ∃ n', servers.length = n' + 1 := ⟨servers.length - 1, by omega⟩
  unfold icount
  rw [hn']
  have hfeq : (fun k => aliveAt servers ((a + 1 + k) % (n' + 1))) =
      (fun k => aliveAt servers ((a + (k + 1)) % (n' + 1))) := by
    funext k
    rw [show a + 1 + k = a + (k + 1) from by ring]
  rw [hfeq]
  refine countP_range_rotate (fun k => aliveAt servers ((a + k) % (n' + 1))) n' ?_
  show aliveAt servers ((a + (n' + 1)) % (n' + 1)) = aliveAt servers ((a + 0) % (n' + 1))
  rw [Nat.add_mod_right]
  simp

theorem icount_const (servers : List Server) (hn : 0 < servers.length) (a : Nat) :
    icount servers a servers.length = aliveN servers := by
  induction a with
  | zero =>
    unfold icount aliveN
    apply List.countP_congr
    intro k hk
    rw [List.mem_range] at hk
    have : (0 + k) % servers.length = k := by
      rw [Nat.zero_add]
      exact Nat.mod_eq_of_lt hk
    rw [this]
  | succ a ih => exact (icount_shift servers hn a).trans ih

theorem aliveN_pos (servers : List Server) (m0 : Nat) (hm0 : m0 < servers.length)
    (hal0 : aliveAt servers m0 = true) : 0 < aliveN servers := by
  unfold aliveN
  exact List.countP_pos_iff.mpr ⟨m0, List.mem_range.mpr hm0, hal0⟩

theorem icount_gap (servers : List Server) (hn : 0 < servers.length) (m0 : Nat)
    (hm0 : m0 < servers.length) (hal0 : aliveAt servers m0 = true) (s0 t : Nat) :
    icount servers (lineSeq servers s0 t + 1)
      (lineSeq servers s0 (t + 1) - lineSeq servers s0 t) = 1 := by
  obtain ⟨hlt, hle⟩ := lineSeq_step_bounds servers hn m0 hm0 hal0 s0 t
  have hL : lineSeq servers s0 (t + 1) - lineSeq servers s0 t =
      (lineSeq servers s0 (t + 1) - lineSeq servers s0 t - 1) + 1 := by omega
  rw [hL, icount_split]
  have hzero : icount servers (lineSeq servers s0 t + 1)
      (lineSeq servers s0 (t + 1) - lineSeq servers s0 t - 1) = 0 := by
    apply icount_zero_of_dead
    intro r hr1 hr2
    exact lineSeq_dead_between servers hn m0 hm0 hal0 s0 t r (by omega) (by omega)
  have haddr : lineSeq servers s0 t + 1 +
      (lineSeq servers s0 (t + 1) - lineSeq servers s0 t - 1) =
      lineSeq servers s0 (t + 1) := by omega
  have hone : icount servers (lineSeq servers s0 t + 1 +
      (lineSeq servers s0 (t + 1) - lineSeq servers s0 t - 1)) 1 = 1 := by
    rw [haddr, icount_one]
    simp [lineSeq_alive servers hn m0 hm0 hal0 s0 (t + 1)]
  omega

theorem icount_enum (servers : List Server) (hn : 0 < servers.length) (m0 : Nat)
    (hm0 : m0 < servers.length) (hal0 : aliveAt servers m0 = true) (s0 t : Nat) :
    ∀ k, icount servers (lineSeq servers s0 t + 1)
      (lineSeq servers s0 (t + k) - lineSeq servers s0 t) = k := by
  intro k
  induction k with
  | zero =>
    show icount servers (lineSeq servers s0 t + 1)
      (lineSeq servers s0 t - lineSeq servers s0 t) = 0
    rw [Nat.sub_self]
    unfold icount
    simp
  | succ k ih =>
    have hmono1 : lineSeq servers s0 t ≤ lineSeq servers s0 (t + k) :=
      lineSeq_le_of_le servers hn m0 hm0 hal0 s0 (by omega)
    have hstep := (lineSeq_step_bounds servers hn m0 hm0 hal0 s0 (t + k)).1
    have hsplitL : lineSeq servers s0 (t + (k + 1)) - lineSeq servers s0 t =
        (lineSeq servers s0 (t + k) - lineSeq servers s0 t) +
          (lineSeq servers s0 ((t + k) + 1) - lineSeq servers s0 (t + k)) := by
      have : t + (k + 1) = (t + k) + 1 := by ring
      rw [this]
      omega
    rw [hsplitL, icount_split]
    have haddr : lineSeq servers s0 t + 1 +
        (lineSeq servers s0 (t + k) - lineSeq servers s0 t) =
        lineSeq servers s0 (t + k) + 1 := by omega
    rw [ih, haddr, icount_gap servers hn m0 hm0 hal0 s0 (t + k)]

theorem lineSeq_period (servers : List Server) (hn : 0 < servers.length) (m0 : Nat)
    (hm0 : m0 < servers.length) (hal0 : aliveAt servers m0 = true) (s0 t : Nat) :
    lineSeq servers s0 (t + aliveN servers) = lineSeq servers s0 t + servers.length := by
  have hmono : lineSeq servers s0 t ≤ lineSeq servers s0 (t + aliveN servers) :=
    lineSeq_le_of_le servers hn m0 hm0 hal0 s0 (by omega)
  have henum := icount_enum servers hn m0 hm0 hal0 s0 t (aliveN servers)
  have hwin : icount servers (lineSeq servers s0 t + 1) servers.length =
      aliveN servers := icount_const servers hn _
  have halq : aliveAt servers ((lineSeq servers s0 t + servers.length) %
      servers.length) = true := by
    rw [Nat.add_mod_right]
    exact lineSeq_alive servers hn m0 hm0 hal0 s0 t
  rcases Nat.lt_trichotomy (lineSeq servers s0 (t + aliveN servers))
      (lineSeq servers s0 t + servers.length) with hlt | heq | hgt
  · exfalso
    have hsplit : servers.length =
        (lineSeq servers s0 (t + aliveN servers) - lineSeq servers s0 t) +
          (servers.length -
            (lineSeq servers s0 (t + aliveN servers) - lineSeq servers s0 t)) := by
      omega
    rw [hsplit, icount_split] at hwin
    have hpos := icount_pos_of servers
      (lineSeq servers s0 t + 1 +
        (lineSeq servers s0 (t + aliveN servers) - lineSeq servers s0 t))
      (servers.length -
        (lineSeq servers s0 (t + aliveN servers) - lineSeq servers s0 t))
      (lineSeq servers s0 t + servers.length) (by omega) (by omega) halq
    omega
  · omega
  · exfalso
    have hsplit : lineSeq servers s0 (t + aliveN servers) - lineSeq servers s0 t =
        servers.length +
          (lineSeq servers s0 (t + aliveN servers) - lineSeq servers s0 t -
            servers.length) := by
      omega
    rw [hsplit, icount_split, hwin] at henum
    have halq2 : aliveAt servers (lineSeq servers s0 (t + aliveN servers) %
        servers.length) = true := lineSeq_alive servers hn m0 hm0 hal0 s0 _
    have hpos := icount_pos_of servers
      (lineSeq servers s0 t + 1 + servers.length)
      (lineSeq servers s0 (t + aliveN servers) - lineSeq servers s0 t -
        servers.length)
      (lineSeq servers s0 (t + aliveN servers)) (by omega) (by omega) halq2
    omega

theorem lineSeq_mem (servers : List Server) (hn : 0 < servers.length) (m0 : Nat)
    (hm0 : m0 < servers.length) (hal0 : aliveAt servers m0 = true) (s0 t : Nat) :
    ∀ k r, lineSeq servers s0 t < r → r ≤ lineSeq servers s0 (t + k) →
      aliveAt servers (r % servers.length) = true →
      ∃ j, 1 ≤ j ∧ j ≤ k ∧ lineSeq servers s0 (t + j) = r := by
  intro k
  induction k with
  | zero =>
    intro r h1 h2 _
    rw [Nat.add_zero] at h2
    omega
  | succ k ih =>
    intro r h1 h2 hal
    rcases le_or_lt r (lineSeq servers s0 (t + k)) with hle | hgt
    · obtain ⟨j, hj1, hj2, hj3⟩ := ih r h1 hle hal
      exact ⟨j, hj1, by omega, hj3⟩
    · have hidx : t + (k + 1) = (t + k) + 1 := by ring
      rcases Nat.eq_or_lt_of_le h2 with heq | hlt2
      · exact ⟨k + 1, by omega, le_refl _, heq.symm⟩
      · exfalso
        rw [hidx] at hlt2
        have hdead := lineSeq_dead_between servers hn m0 hm0 hal0 s0 (t + k) r hgt hlt2
        rw [hdead] at hal
        cases hal

theorem lineSeq_cover (servers : List Server) (hn : 0 < servers.length) (m0 : Nat)
    (hm0 : m0 < servers.length) (hal0 : aliveAt servers m0 = true) (s0 t m : Nat)
    (hm : m < servers.length) (hal : aliveAt servers m = true) :
    ∃ j, j < aliveN servers ∧ lineSeq servers s0 (t + j) % servers.length = m := by
  have hNpos := aliveN_pos servers m0 hm0 hal0
  obtain ⟨k, hk, hkm⟩ := reach_residue servers.length (lineSeq servers s0 t) m hn hm
  rcases Nat.eq_zero_or_pos k with rfl | hkpos
  · refine ⟨0, hNpos, ?_⟩
    rw [Nat.add_zero]
    rw [Nat.add_zero] at hkm
    exact hkm
  · have hperiod := lineSeq_period servers hn m0 hm0 hal0 s0 t
    have halr : aliveAt servers ((lineSeq servers s0 t + k) % servers.length) = true := by
      rw [hkm]; exact hal
    obtain ⟨j, hj1, hj2, hj3⟩ := lineSeq_mem servers hn m0 hm0 hal0 s0 t
      (aliveN servers) (lineSeq servers s0 t + k) (by omega)
      (by rw [hperiod]; omega) halr
    have hjlt : j < aliveN servers := by
      rcases Nat.eq_or_lt_of_le hj2 with heq | h
      · exfalso
        rw [heq] at hj3
        rw [hperiod] at hj3
        omega
      · exact h
    refine ⟨j, hjlt, ?_⟩
    rw [hj3, hkm]

theorem countP_range_mono (f : Nat → Bool) (a b : Nat) (hab : a ≤ b) :
    (List.range a).countP f ≤ (List.range b).countP f := by
  have hb : b = a + (b - a) := by omega
  rw [hb, List.range_add, List.countP_append]
  omega

theorem countP_blocks (f : Nat → Bool) (N B M : Nat)
    (hcov : ∀ b, b < B → ∃ j, j < N ∧ f (b * N + j) = true)
    (hBM : B * N ≤ M) : B ≤ (List.range M).countP f := by
  have main : ∀ B', B' ≤ B → B' ≤ (List.range (B' * N)).countP f := by
    intro B'
    induction B' with
    | zero => intro _; simp
    | succ b ihb =>
      intro hb
      have h1 : b ≤ (List.range (b * N)).countP f := ihb (by omega)
      have hsucc : (b + 1) * N = b * N + N := by ring
      rw [hsucc, List.range_add, List.countP_append]
      obtain ⟨j, hj, hfj⟩ := hcov b (by omega)
      have hpos : 0 < List.countP f (List.map (fun x => b * N + x) (List.range N)) := by
        rw [List.countP_map]
        refine List.countP_pos_iff.mpr ⟨j, List.mem_range.mpr hj, ?_⟩
        simpa [Function.comp] using hfj
      omega
  calc B ≤ (List.range (B * N)).countP f := main B le_rfl
    _ ≤ (List.range M).countP f := countP_range_mono f _ _ hBM

theorem iterNext_spec (servers : List Server) (hn : 0 < servers.length) (m0 : Nat)
    (hm0 : m0 < servers.length) (hal0 : aliveAt servers m0 = true) :
    ∀ (M K cur : Nat), cur + 1 ≤ K → servers.length ≤ K →
      2 * K + 2 * M < INT64_HALF →
    ∃ pf : ServerPool,
      iterNext ⟨servers, cur⟩ M =
        .ok ((List.range M).map
          (fun t => servers[lineSeq servers (cur + 1) t % servers.length]?), pf) ∧
      pf.servers = servers ∧ pf.current + 1 ≤ K + M := by
  intro M
  induction M with
  | zero =>
    intro K cur h1 h2 h3
    refine ⟨⟨servers, cur⟩, rfl, rfl, ?_⟩
    show cur + 1 ≤ K + 0
    omega
  | succ M ih =>
    intro K cur h1 h2 h3
    have hc : cur + 1 + servers.length < INT64_HALF := by omega
    obtain ⟨k, hk, hkm⟩ := reach_residue servers.length (cur + 1) m0 hn hm0
    have hsome : (firstAlivePos servers (cur + 1) servers.length).isSome :=
      firstAlivePos_isSome servers hn servers.length (cur + 1)
        ⟨k, hk, by rw [hkm]; exact hal0⟩
    obtain ⟨⟨pos, idx⟩, hfp⟩ := Option.isSome_iff_exists.mp hsome
    obtain ⟨hp1, hp2, hp3, hp4⟩ := firstAlivePos_spec servers _ _ _ _ hfp
    have hidxlt : idx < servers.length := by rw [hp3]; exact Nat.mod_lt _ hn
    have hns := NextServer_some ⟨servers, cur⟩ hn hc (pos, idx) hfp
    have hq0 : lineSeq servers (cur + 1) 0 = pos := by
      show lineNextD servers (cur + 1) = pos
      unfold lineNextD
      rw [hfp]
    set c1 : Nat := if pos = cur + 1 then cur + 1 else idx with hc1def
    have hc1le : c1 + 1 ≤ K + 1 := by
      rw [hc1def]
      split <;> omega
    obtain ⟨pf, hiter, hpfs, hpfc⟩ := ih (K + 1) c1 hc1le (by omega) (by omega)
    refine ⟨pf, ?_, hpfs, by omega⟩
    have hpoint : ∀ t, lineSeq servers (c1 + 1) t % servers.length =
        lineSeq servers (cur + 1) (t + 1) % servers.length := by
      intro t
      rw [lineSeq_succ_start servers (cur + 1) t]
      have hD : lineNextD servers (cur + 1) = pos := hq0
      rw [hD, hc1def]
      by_cases hcase : pos = cur + 1
      · rw [if_pos hcase, hcase]
      · rw [if_neg hcase]
        have hposdecomp : pos + 1 =
            (idx + 1) + servers.length * (pos / servers.length) := by
          rw [hp3]
          rw [show (pos % servers.length + 1) + servers.length * (pos / servers.length) =
            (servers.length * (pos / servers.length) + pos % servers.length) + 1 from
            by ring, Nat.div_add_mod]
        rw [hposdecomp, lineSeq_add_mul, Nat.add_mul_mod_self_left]
    have htail : (List.range M).map
        (fun t => servers[lineSeq servers (c1 + 1) t % servers.length]?) =
        (List.range M).map
          ((fun t => servers[lineSeq servers (cur + 1) t % servers.length]?) ∘
            Nat.succ) := by
      apply List.map_congr_left
      intro t _
      show servers[lineSeq servers (c1 + 1) t % servers.length]? =
        servers[lineSeq servers (cur + 1) (t + 1) % servers.length]?
      rw [hpoint t]
    simp only [iterNext, hns, hiter]
    conv_rhs => rw [List.range_succ_eq_map, List.map_cons, List.map_map]
    rw [htail, hq0, ← hp3]

/-- Claim C6: round-robin fairness.  For every pool, every alive backend
(index `m`) and every `M ≥ aliveN` sequential calls to `NextServer`
(cursor in the `int64`-safe range), the liveness flags never change
during the calls and the backend at `m` is returned at least
`⌊M / aliveN⌋` times — also when the pool contains dead backends and the
skip-ahead cursor store is exercised. -/
theorem claim6_fairness (p : ServerPool) (M m : Nat)
    (hm : m < p.servers.length) (hal : aliveAt p.servers m = true)
    (hM : aliveN p.servers ≤ M)
    (hc : 2 * (p.current + 1 + p.servers.length) + 2 * M < INT64_HALF) :
    ∃ results pf,
      iterNext p M = .ok (results, pf) ∧ pf.servers = p.servers ∧
        M / aliveN p.servers ≤ results.count p.servers[m]? := by
  obtain ⟨servers, cur⟩ := p
  dsimp only at hm hal hM hc ⊢
  have hn : 0 < servers.length := by omega
  obtain ⟨pf, hiter, hpfs, hpfc⟩ := iterNext_spec servers hn m hm hal M
    (cur + 1 + servers.length) cur (by omega) (by omega) (by omega)
  refine ⟨_, pf, hiter, hpfs, ?_⟩
  have hcov : ∀ b, b < M / aliveN servers → ∃ j, j < aliveN servers ∧
      decide (lineSeq servers (cur + 1) (b * aliveN servers + j) % servers.length = m)
        = true := by
    intro b _
    obtain ⟨j, hj, hjm⟩ :=
      lineSeq_cover servers hn m hm hal (cur + 1) (b * aliveN servers) m hm hal
    exact ⟨j, hj, by simpa using hjm⟩
  have hblocks := countP_blocks
    (fun t => decide (lineSeq servers (cur + 1) t % servers.length = m))
    (aliveN servers) (M / aliveN servers) M hcov (Nat.div_mul_le_self M _)
  have himp : ∀ t ∈ List.range M,
      decide (lineSeq servers (cur + 1) t % servers.length = m) = true →
      (servers[lineSeq servers (cur + 1) t % servers.length]? == servers[m]?) = true := by
    intro t _ hdec
    have heq : lineSeq servers (cur + 1) t % servers.length = m :=
      of_decide_eq_true hdec
    rw [heq]
    exact beq_self_eq_true _
  have hmono := List.countP_mono_left himp
  have hcount : (List.map
      (fun t => servers[lineSeq servers (cur + 1) t % servers.length]?)
      (List.range M)).count servers[m]? =
      (List.range M).countP
        (fun t => servers[lineSeq servers (cur + 1) t % servers.length]? ==
          servers[m]?) := by
    rw [List.count_eq_countP, List.countP_map]
    rfl
  rw [hcount]
  omega

/-- Claim C6 witness: two alive backends, two calls — each backend is
returned at least once. -/
theorem claim6_witness :
    ∃ results pf,
      iterNext ⟨[⟨"http://a", true⟩, ⟨"http://b", true⟩], 0⟩ 2 = .ok (results, pf) ∧
      pf.servers =
        (⟨[⟨"http://a", true⟩, ⟨"http://b", true⟩], 0⟩ : ServerPool).servers ∧
      2 / aliveN (⟨[⟨"http://a", true⟩, ⟨"http://b", true⟩], 0⟩ :
          ServerPool).servers ≤
        results.count (⟨[⟨"http://a", true⟩, ⟨"http://b", true⟩], 0⟩ :
          ServerPool).servers[0]? :=
  claim6_fairness ⟨[⟨"http://a", true⟩, ⟨"http://b", true⟩], 0⟩ 2 0 (by decide)
    (by decide) (by decide) (by decide)

end ToyLB
